import Mathlib

/-!
Verification development for the `myc` compiler (a minimal C-subset to
x86-64 assembly compiler). Each stage of the pipeline is shallowly
embedded from the Rust sources:

* `src/lexer.rs`    — tokens and the character-level lexer
* `src/ast.rs`      — the AST types
* `src/parser.rs`   — recursive descent with precedence climbing
* `src/tacky.rs`    — three-address-code lowering
* `src/assembly.rs` — instruction selection, pseudo replacement, legalization
* `src/codegen.rs`  — the textual emitter

Machine integers (`i32`, `u32`, `u64`) are modelled as `Int`/`Nat`; the
only place the `i32` range matters (the lexer's numeric-literal check) is
modelled explicitly. Rust's `char::is_alphanumeric` / `char::is_whitespace`
are modelled by their ASCII restrictions (`Char.isAlphanum`,
`Char.isWhitespace`), which agree with Rust on all ASCII inputs; all
claims concern ASCII sources.
-/

/-- Tokens, from `lexer.rs` (`enum Token`). The `Constant` payload is the
Rust `i32`, modelled as `Int`. -/
inductive Token where
  | Identifier (name : String)
  | Constant (n : Int)
  | Tilde
  | Minus
  | DoubleMinus
  | Plus
  | Star
  | Slash
  | Percent
  | Int
  | Void
  | Return
  | OpenParenthesis
  | CloseParenthesis
  | OpenBrace
  | CloseBrace
  | Semicolon
  | Invalid (s : String)
deriving DecidableEq, Repr

/-- From `lexer.rs` (`identifier_to_token`): keywords `int`, `void`,
`return`; every other run is an identifier. -/
def identifierToToken (s : String) : Token :=
  if s = "int" then Token.Int
  else if s = "void" then Token.Void
  else if s = "return" then Token.Return
  else Token.Identifier s

/-- Models Rust `str::parse::<i32>()` as used in `Cursor::constant`
(`lexer.rs`). The argument is the scanned lexeme, which always starts
with an ASCII digit and continues with alphanumerics, so no sign is
present: parsing succeeds iff every character is a digit and the decimal
value fits in `i32` (that is, is at most 2147483647). -/
def parseI32 (s : List Char) : Option Int :=
  if s ≠ [] ∧ s.all Char.isDigit then
    let n : Nat := s.foldl (fun a c => a * 10 + (c.toNat - 48)) 0
    if n ≤ 2147483647 then some (Int.ofNat n) else none
  else none

/-- Continuation characters of identifier / number runs: Rust
`char::is_alphanumeric` (ASCII restriction). -/
def isAlnumChar (c : Char) : Bool := c.isAlphanum

/-- Start characters of identifier runs, from `Cursor::lex`
(`'a'..='z' | 'A'..='Z'`). -/
def isLetterStart (c : Char) : Bool :=
  ('a' ≤ c && c ≤ 'z') || ('A' ≤ c && c ≤ 'Z')

/-- The ten single-character arms of the `match` in `Cursor::lex`
(`lexer.rs`): each of `( ) { } ; + * / % ~` produces its singleton
token. -/
def lexPunct (c : Char) : Option Token :=
  if c = '(' then some Token.OpenParenthesis
  else if c = ')' then some Token.CloseParenthesis
  else if c = '{' then some Token.OpenBrace
  else if c = '}' then some Token.CloseBrace
  else if c = ';' then some Token.Semicolon
  else if c = '+' then some Token.Plus
  else if c = '*' then some Token.Star
  else if c = '/' then some Token.Slash
  else if c = '%' then some Token.Percent
  else if c = '~' then some Token.Tilde
  else none

/-- The per-character dispatch of `Cursor::lex` (`lexer.rs`), applied to
the current character `c` and the characters after it. `none` is the
`EOF` arm: the `'\0'` sentinel stops the token iterator. -/
def lexToken (c : Char) (rest : List Char) : Option (Token × List Char) :=
  match lexPunct c with
  | some t => some (t, rest)
  | none =>
    if c = '-' then
      if rest.head? = some '-' then some (Token.DoubleMinus, rest.tail)
      else some (Token.Minus, rest)
    else if c.isDigit then
      match parseI32 (c :: rest.takeWhile isAlnumChar) with
      | some n => some (Token.Constant n, rest.dropWhile isAlnumChar)
      | none =>
        some (Token.Invalid (String.mk (c :: rest.takeWhile isAlnumChar)),
              rest.dropWhile isAlnumChar)
    else if isLetterStart c then
      some (identifierToToken (String.mk (c :: rest.takeWhile isAlnumChar)),
            rest.dropWhile isAlnumChar)
    else if c = '\x00' then none
    else some (Token.Invalid (String.mk [c]), rest)

/-- One step of `Cursor::lex` (`lexer.rs`): skip whitespace, then lex a
single token, returning the token and the remaining characters. `none`
is end of input — either the characters ran out or the current character
is `'\0'`, the cursor's `EOF` sentinel. -/
def lexStep (cs : List Char) : Option (Token × List Char) :=
  match cs.dropWhile Char.isWhitespace with
  | [] => none
  | c :: rest => lexToken c rest

/-- Fuelled iteration of `lexStep`; `lex` in `lexer.rs` iterates
`Cursor::lex` until it returns `None`. Each step consumes at least one
character, so fuel `cs.length + 1` (see `lexAll`) is always enough. -/
def lexF : Nat → List Char → List Token
  | 0, _ => []
  | fuel + 1, cs =>
    match lexStep cs with
    | none => []
    | some (t, rest) => t :: lexF fuel rest

/-- The token stream of a source text: `lex` in `lexer.rs`, fully
realized. -/
def lexAll (cs : List Char) : List Token :=
  lexF (cs.length + 1) cs

/-! ## AST (`ast.rs`) -/

namespace Ast

inductive UnaryOperation where
  | Complement
  | Negate
deriving DecidableEq, Repr

inductive BinaryOperation where
  | Add
  | Subtract
  | Multiply
  | Divide
  | Remainder
deriving DecidableEq, Repr

inductive Expression where
  | Constant (n : Int)
  | Unary (op : UnaryOperation) (e : Expression)
  | Binary (op : BinaryOperation) (l r : Expression)
deriving DecidableEq, Repr

inductive Statement where
  | Return (e : Expression)
deriving DecidableEq, Repr

structure FunctionDefinition where
  name : String
  body : Statement
deriving DecidableEq, Repr

structure Program where
  function_definition : FunctionDefinition
deriving DecidableEq, Repr

end Ast

/-! ## Parser (`parser.rs`)

The Rust parser owns a peekable token stream and mutates it; every
embedded parsing function therefore takes the token list and returns the
remaining token list, also on error (the stream position on error
matters, because `parse` inspects the stream after `parse_program` even
when the latter failed). The mutual recursion
`parse_expression` / `parse_factor` / `parse_unary_operation` is made
total with a fuel parameter; `none` means the fuel ran out, which never
happens for the fuel values used in the theorems below. -/

inductive ParseError where
  | UnexpectedToken (t : Token)
  | UnexpectedEOF
  | LexError
deriving DecidableEq, Repr

/-- The result of one embedded parsing function: `none` is fuel
exhaustion (an artifact of the embedding); otherwise the `Result` value
together with the remaining token stream. -/
abbrev PRes (α : Type) := Option (Except ParseError α × List Token)

def pbind {α β : Type} (x : PRes α) (f : α → List Token → PRes β) : PRes β :=
  match x with
  | none => none
  | some (Except.error e, ts) => some (Except.error e, ts)
  | some (Except.ok a, ts) => f a ts

/-- `Parser::bump_if_equal` (via `expect_token`): peek, fail without
consuming on a mismatch, consume on a match. -/
def bumpIfEqual (expected : Token) (ts : List Token) : PRes Unit :=
  match ts with
  | [] => some (Except.error ParseError.UnexpectedEOF, [])
  | t :: rest =>
    if t = expected then some (Except.ok (), rest)
    else some (Except.error (ParseError.UnexpectedToken t), t :: rest)

/-- `is_binary_operator` (`parser.rs`). -/
def isBinaryOperator : Token → Bool
  | Token.Minus | Token.Plus | Token.Star | Token.Slash | Token.Percent => true
  | _ => false

/-- `precedence` (`parser.rs`): `* / %` bind at 50, `+ -` at 45. -/
def precedence : Token → Nat
  | Token.Star | Token.Slash | Token.Percent => 50
  | Token.Minus | Token.Plus => 45
  | _ => 0

/-- `Parser::parse_binary_operation`: consume one token and translate it
to a binary AST operator. -/
def parseBinaryOperation : List Token → PRes Ast.BinaryOperation
  | [] => some (Except.error ParseError.UnexpectedEOF, [])
  | t :: rest =>
    match t with
    | Token.Plus => some (Except.ok Ast.BinaryOperation.Add, rest)
    | Token.Minus => some (Except.ok Ast.BinaryOperation.Subtract, rest)
    | Token.Star => some (Except.ok Ast.BinaryOperation.Multiply, rest)
    | Token.Slash => some (Except.ok Ast.BinaryOperation.Divide, rest)
    | Token.Percent => some (Except.ok Ast.BinaryOperation.Remainder, rest)
    | t => some (Except.error (ParseError.UnexpectedToken t), rest)

/-- `Parser::parse_unary_operation` (`parser.rs` lines 99–107),
parameterized by the expression parser it recurses into. The prefix
token has already been consumed by `parse_factor`. Note that the source
recurses into `parse_expression(0)` — a *full* expression — not into
`parse_factor`. -/
def parseUnaryOperationW (pe : Nat → List Token → PRes Ast.Expression)
    (token : Token) (ts : List Token) : PRes Ast.Expression :=
  match token with
  | Token.Minus =>
    pbind (pe 0 ts) (fun e ts1 =>
      some (Except.ok (Ast.Expression.Unary Ast.UnaryOperation.Negate e), ts1))
  | Token.Tilde =>
    pbind (pe 0 ts) (fun e ts1 =>
      some (Except.ok (Ast.Expression.Unary Ast.UnaryOperation.Complement e), ts1))
  | t => some (Except.error (ParseError.UnexpectedToken t), ts)

/-- The three mutually recursive expression parsers, at a given fuel:
`parse_expression`, its precedence-climbing loop, and `parse_factor`. -/
structure ParserFns where
  expr : Nat → List Token → PRes Ast.Expression
  loop : Nat → Ast.Expression → List Token → PRes Ast.Expression
  factor : List Token → PRes Ast.Expression

/-- Ties the mutual recursion of `parse_expression` / `parse_factor`
(`parser.rs`) through a fuel parameter: the functions at fuel `f + 1`
call the functions at fuel `f`. -/
def parseStep : Nat → ParserFns
  | 0 => ⟨fun _ _ => none, fun _ _ _ => none, fun _ => none⟩
  | fuel + 1 =>
    let P := parseStep fuel
    { expr := fun minPrec ts =>
        pbind (P.factor ts) (fun left ts1 => P.loop minPrec left ts1),
      loop := fun minPrec left ts =>
        match ts with
        | [] => some (Except.ok left, [])
        | t :: _ =>
          if isBinaryOperator t = false then some (Except.ok left, ts)
          else if precedence t < minPrec then some (Except.ok left, ts)
          else
            pbind (parseBinaryOperation ts) (fun op ts1 =>
              pbind (P.expr (precedence t + 1) ts1) (fun right ts2 =>
                P.loop minPrec (Ast.Expression.Binary op left right) ts2)),
      factor := fun ts =>
        match ts with
        | [] => some (Except.error ParseError.UnexpectedEOF, [])
        | Token.Constant n :: rest =>
          some (Except.ok (Ast.Expression.Constant n), rest)
        | Token.Minus :: rest => parseUnaryOperationW P.expr Token.Minus rest
        | Token.Tilde :: rest => parseUnaryOperationW P.expr Token.Tilde rest
        | Token.OpenParenthesis :: rest =>
          pbind (P.expr 0 rest) (fun e ts1 =>
            pbind (bumpIfEqual Token.CloseParenthesis ts1) (fun _ ts2 =>
              some (Except.ok e, ts2)))
        | t :: rest => some (Except.error (ParseError.UnexpectedToken t), rest) }

/-- `Parser::parse_expression(min_precedence)`. -/
def parseExpression (fuel minPrec : Nat) (ts : List Token) : PRes Ast.Expression :=
  (parseStep fuel).expr minPrec ts

/-- The `loop` inside `Parser::parse_expression`, with the accumulated
left operand. -/
def parseLoop (fuel minPrec : Nat) (left : Ast.Expression) (ts : List Token) :
    PRes Ast.Expression :=
  (parseStep fuel).loop minPrec left ts

/-- `Parser::parse_factor`. -/
def parseFactor (fuel : Nat) (ts : List Token) : PRes Ast.Expression :=
  (parseStep fuel).factor ts

/-- `Parser::parse_statement`: `return <expression> ;`. -/
def parseStatement (fuel : Nat) (ts : List Token) : PRes Ast.Statement :=
  pbind (bumpIfEqual Token.Return ts) (fun _ ts1 =>
    pbind (parseExpression fuel 0 ts1) (fun e ts2 =>
      pbind (bumpIfEqual Token.Semicolon ts2) (fun _ ts3 =>
        some (Except.ok (Ast.Statement.Return e), ts3))))

/-- `Parser::parse_function_definition`:
`int <Identifier> ( void ) { <statement> }`. -/
def parseFunctionDefinition (fuel : Nat) (ts : List Token) :
    PRes Ast.FunctionDefinition :=
  pbind (bumpIfEqual Token.Int ts) (fun _ ts1 =>
    match ts1 with
    | [] => some (Except.error ParseError.UnexpectedEOF, [])
    | Token.Identifier name :: ts2 =>
      pbind (bumpIfEqual Token.OpenParenthesis ts2) (fun _ ts3 =>
        pbind (bumpIfEqual Token.Void ts3) (fun _ ts4 =>
          pbind (bumpIfEqual Token.CloseParenthesis ts4) (fun _ ts5 =>
            pbind (bumpIfEqual Token.OpenBrace ts5) (fun _ ts6 =>
              pbind (parseStatement fuel ts6) (fun body ts7 =>
                pbind (bumpIfEqual Token.CloseBrace ts7) (fun _ ts8 =>
                  some (Except.ok ⟨name, body⟩, ts8)))))))
    | t :: ts2 => some (Except.error (ParseError.UnexpectedToken t), ts2))

/-- `Parser::parse_program`. -/
def parseProgram (fuel : Nat) (ts : List Token) : PRes Ast.Program :=
  pbind (parseFunctionDefinition fuel ts) (fun fd ts1 =>
    some (Except.ok ⟨fd⟩, ts1))

/-- Top-level `parse` (`parser.rs`): run `parse_program`, then — whether
or not it succeeded — if the stream is not empty, report the next token
as unexpected; otherwise return `parse_program`'s result. -/
def parseTokens (fuel : Nat) (ts : List Token) :
    Option (Except ParseError Ast.Program) :=
  match parseProgram fuel ts with
  | none => none
  | some (r, rest) =>
    match rest with
    | [] => some r
    | t :: _ => some (Except.error (ParseError.UnexpectedToken t))

/-! ## TAC (`tacky.rs`) -/

namespace Tacky

inductive Value where
  | Constant (n : Int)
  | Var (name : String)
deriving DecidableEq, Repr

inductive UnaryOperator where
  | Complement
  | Negate
deriving DecidableEq, Repr

inductive BinaryOperator where
  | Add
  | Subtract
  | Multiply
  | Divide
  | Remainder
deriving DecidableEq, Repr

inductive Instruction where
  | Return (v : Value)
  | Unary (operator : UnaryOperator) (src dst : Value)
  | Binary (operator : BinaryOperator) (left right dst : Value)
deriving DecidableEq, Repr

end Tacky

/-- `From<ast::UnaryOperation> for tacky::UnaryOperator`. -/
def unopOfAst : Ast.UnaryOperation → Tacky.UnaryOperator
  | Ast.UnaryOperation.Complement => Tacky.UnaryOperator.Complement
  | Ast.UnaryOperation.Negate => Tacky.UnaryOperator.Negate

/-- `From<ast::BinaryOperation> for tacky::BinaryOperator`. -/
def binopOfAst : Ast.BinaryOperation → Tacky.BinaryOperator
  | Ast.BinaryOperation.Add => Tacky.BinaryOperator.Add
  | Ast.BinaryOperation.Subtract => Tacky.BinaryOperator.Subtract
  | Ast.BinaryOperation.Multiply => Tacky.BinaryOperator.Multiply
  | Ast.BinaryOperation.Divide => Tacky.BinaryOperator.Divide
  | Ast.BinaryOperation.Remainder => Tacky.BinaryOperator.Remainder

/-- The temporary holding result number `j`: `__tmp.<j>` with `j`
rendered in decimal, as `format!("__tmp.{c}")` does in
`TackyGen::make_temporary`. -/
def tmpVar (j : Nat) : Tacky.Value :=
  Tacky.Value.Var ("__tmp." ++ Nat.repr j)

/-- `TackyGen::make_temporary` (`tacky.rs`): the fresh temporary for
counter value `c` is named `__tmp.<c>` (decimal), and the counter is
incremented. -/
def makeTemporary (c : Nat) : Tacky.Value × Nat :=
  (tmpVar c, c + 1)

/-- `TackyGen::expression` (`tacky.rs` lines 114–142). The Rust method
pushes instructions onto a shared `Vec` and mutates a counter; the
embedding threads the counter explicitly and returns the emitted
instructions, in order, together with the result `Value`. -/
def emitExpr : Ast.Expression → Nat → Tacky.Value × Nat × List Tacky.Instruction
  | Ast.Expression.Constant n, c => (Tacky.Value.Constant n, c, [])
  | Ast.Expression.Unary op e, c =>
    let (src, c1, is1) := emitExpr e c
    let (dst, c2) := makeTemporary c1
    (dst, c2, is1 ++ [Tacky.Instruction.Unary (unopOfAst op) src dst])
  | Ast.Expression.Binary op l r, c =>
    let (lv, c1, is1) := emitExpr l c
    let (rv, c2, is2) := emitExpr r c1
    let (dst, c3) := makeTemporary c2
    (dst, c3, is1 ++ is2 ++ [Tacky.Instruction.Binary (binopOfAst op) lv rv dst])

/-- `TackyGen::instructions` (`tacky.rs`): lower the statement's
expression, then append `Return` of its value. The counter starts at 0
for each compilation (`TackyGen::new`). -/
def lowerStatement : Ast.Statement → List Tacky.Instruction
  | Ast.Statement.Return e =>
    let (v, _, is) := emitExpr e 0
    is ++ [Tacky.Instruction.Return v]

/-! ## Abstract assembly (`assembly.rs`) -/

namespace Asm

inductive Register where
  | AX
  | DX
  | R10
  | R11
deriving DecidableEq, Repr

inductive Operand where
  | Imm (n : Int)
  | Register (r : Register)
  | Pseudo (name : String)
  | Stack (offset : Nat)
deriving DecidableEq, Repr

inductive UnaryOperator where
  | Neg
  | Not
deriving DecidableEq, Repr

inductive BinaryOperator where
  | Add
  | Sub
  | Mult
deriving DecidableEq, Repr

inductive Instruction where
  | Mov (src dst : Operand)
  | Unary (operator : UnaryOperator) (operand : Operand)
  | Binary (operator : BinaryOperator) (src dst : Operand)
  | Idiv (operand : Operand)
  | Cdq
  | AllocateStack (n : Nat)
  | Ret
deriving DecidableEq, Repr

end Asm

/-- `From<tacky::Value> for Operand` (`assembly.rs`). -/
def operandOfValue : Tacky.Value → Asm.Operand
  | Tacky.Value.Constant n => Asm.Operand.Imm n
  | Tacky.Value.Var s => Asm.Operand.Pseudo s

/-- `From<tacky::UnaryOperator> for UnaryOperator` (`assembly.rs`). -/
def unopOfTacky : Tacky.UnaryOperator → Asm.UnaryOperator
  | Tacky.UnaryOperator.Complement => Asm.UnaryOperator.Not
  | Tacky.UnaryOperator.Negate => Asm.UnaryOperator.Neg

/-- `TryFrom<tacky::BinaryOperator> for BinaryOperator` (`assembly.rs`):
`Divide` and `Remainder` have no direct two-operand form and yield an
error. -/
def tryFromBinop : Tacky.BinaryOperator → Option Asm.BinaryOperator
  | Tacky.BinaryOperator.Add => some Asm.BinaryOperator.Add
  | Tacky.BinaryOperator.Subtract => some Asm.BinaryOperator.Sub
  | Tacky.BinaryOperator.Multiply => some Asm.BinaryOperator.Mult
  | Tacky.BinaryOperator.Divide => none
  | Tacky.BinaryOperator.Remainder => none

/-- One arm of the `flat_map` in `instructions` (`assembly.rs` lines
157–241): the abstract-assembly sequence selected for a single TAC
instruction. In the final arm the `none` branch of `tryFromBinop` is
unreachable (`Divide` and `Remainder` are matched by earlier arms); the
source `expect`s there. -/
def selectInstruction : Tacky.Instruction → List Asm.Instruction
  | Tacky.Instruction.Return v =>
    [Asm.Instruction.Mov (operandOfValue v) (Asm.Operand.Register Asm.Register.AX),
     Asm.Instruction.Ret]
  | Tacky.Instruction.Unary op src dst =>
    [Asm.Instruction.Mov (operandOfValue src) (operandOfValue dst),
     Asm.Instruction.Unary (unopOfTacky op) (operandOfValue dst)]
  | Tacky.Instruction.Binary Tacky.BinaryOperator.Divide l r dst =>
    [Asm.Instruction.Mov (operandOfValue l) (Asm.Operand.Register Asm.Register.AX),
     Asm.Instruction.Cdq,
     Asm.Instruction.Idiv (operandOfValue r),
     Asm.Instruction.Mov (Asm.Operand.Register Asm.Register.AX) (operandOfValue dst)]
  | Tacky.Instruction.Binary Tacky.BinaryOperator.Remainder l r dst =>
    [Asm.Instruction.Mov (operandOfValue l) (Asm.Operand.Register Asm.Register.AX),
     Asm.Instruction.Cdq,
     Asm.Instruction.Idiv (operandOfValue r),
     Asm.Instruction.Mov (Asm.Operand.Register Asm.Register.DX) (operandOfValue dst)]
  | Tacky.Instruction.Binary op l r dst =>
    match tryFromBinop op with
    | some o =>
      [Asm.Instruction.Mov (operandOfValue l) (operandOfValue dst),
       Asm.Instruction.Binary o (operandOfValue r) (operandOfValue dst)]
    | none => []

/-- `instructions` (`assembly.rs`): `flat_map` of `selectInstruction`. -/
def instructionsSel : List Tacky.Instruction → List Asm.Instruction
  | [] => []
  | i :: is => selectInstruction i ++ instructionsSel is

/-- The `HashMap<String, u32>` of `replace_pseudo_registers`, modelled as
an association list (only `entry(..).or_insert(..)` is used, so lookup
semantics is all that matters). -/
def lookupA : List (String × Nat) → String → Option Nat
  | [], _ => none
  | (k, v) :: rest, s => if k = s then some v else lookupA rest s

/-- `stack_offset` (`assembly.rs` lines 279–286): a pseudo is replaced by
its mapped stack slot, inserting `offset + 4` on first occurrence; the
function returns the rewritten operand and the slot offset it used —
which the caller then takes as the new running offset. Non-pseudo
operands pass through with the running offset unchanged. -/
def stackOffset (op : Asm.Operand) (map : List (String × Nat)) (offset : Nat) :
    Asm.Operand × List (String × Nat) × Nat :=
  match op with
  | Asm.Operand.Pseudo i =>
    match lookupA map i with
    | some o => (Asm.Operand.Stack o, map, o)
    | none => (Asm.Operand.Stack (offset + 4), (i, offset + 4) :: map, offset + 4)
  | op => (op, map, offset)

/-- The instruction scan of `replace_pseudo_registers` (`assembly.rs`
lines 243–277), threading the map and the running offset. -/
def replacePseudosGo (map : List (String × Nat)) (offset : Nat) :
    List Asm.Instruction → List Asm.Instruction × Nat
  | [] => ([], offset)
  | i :: is =>
    match i with
    | Asm.Instruction.Mov src dst =>
      let (src', map1, of1) := stackOffset src map offset
      let (dst', map2, of2) := stackOffset dst map1 of1
      let (rest, final) := replacePseudosGo map2 of2 is
      (Asm.Instruction.Mov src' dst' :: rest, final)
    | Asm.Instruction.Unary op operand =>
      let (operand', map1, of1) := stackOffset operand map offset
      let (rest, final) := replacePseudosGo map1 of1 is
      (Asm.Instruction.Unary op operand' :: rest, final)
    | Asm.Instruction.Binary op src dst =>
      let (src', map1, of1) := stackOffset src map offset
      let (dst', map2, of2) := stackOffset dst map1 of1
      let (rest, final) := replacePseudosGo map2 of2 is
      (Asm.Instruction.Binary op src' dst' :: rest, final)
    | Asm.Instruction.Idiv op =>
      let (op', map1, of1) := stackOffset op map offset
      let (rest, final) := replacePseudosGo map1 of1 is
      (Asm.Instruction.Idiv op' :: rest, final)
    | i =>
      let (rest, final) := replacePseudosGo map offset is
      (i :: rest, final)

/-- `replace_pseudo_registers` (`assembly.rs`): empty map, offset 0; the
final running offset is returned as the frame size. -/
def replacePseudos (is : List Asm.Instruction) : List Asm.Instruction × Nat :=
  replacePseudosGo [] 0 is

/-- One arm of the `flat_map` in `fixing_up` (`assembly.rs` lines
288–364): rewrite a single instruction into a legal sequence. Note the
`Mult` arm only fires when *both* operands are `Stack`. -/
def fixInstr : Asm.Instruction → List Asm.Instruction
  | Asm.Instruction.Mov (Asm.Operand.Stack s) (Asm.Operand.Stack d) =>
    [Asm.Instruction.Mov (Asm.Operand.Stack s) (Asm.Operand.Register Asm.Register.R10),
     Asm.Instruction.Mov (Asm.Operand.Register Asm.Register.R10) (Asm.Operand.Stack d)]
  | Asm.Instruction.Binary Asm.BinaryOperator.Add (Asm.Operand.Stack s) (Asm.Operand.Stack d) =>
    [Asm.Instruction.Mov (Asm.Operand.Stack s) (Asm.Operand.Register Asm.Register.R10),
     Asm.Instruction.Binary Asm.BinaryOperator.Add
       (Asm.Operand.Register Asm.Register.R10) (Asm.Operand.Stack d)]
  | Asm.Instruction.Binary Asm.BinaryOperator.Sub (Asm.Operand.Stack s) (Asm.Operand.Stack d) =>
    [Asm.Instruction.Mov (Asm.Operand.Stack s) (Asm.Operand.Register Asm.Register.R10),
     Asm.Instruction.Binary Asm.BinaryOperator.Sub
       (Asm.Operand.Register Asm.Register.R10) (Asm.Operand.Stack d)]
  | Asm.Instruction.Binary Asm.BinaryOperator.Mult (Asm.Operand.Stack s) (Asm.Operand.Stack d) =>
    [Asm.Instruction.Mov (Asm.Operand.Stack d) (Asm.Operand.Register Asm.Register.R11),
     Asm.Instruction.Binary Asm.BinaryOperator.Mult
       (Asm.Operand.Stack s) (Asm.Operand.Register Asm.Register.R11),
     Asm.Instruction.Mov (Asm.Operand.Register Asm.Register.R11) (Asm.Operand.Stack d)]
  | Asm.Instruction.Idiv (Asm.Operand.Imm n) =>
    [Asm.Instruction.Mov (Asm.Operand.Imm n) (Asm.Operand.Register Asm.Register.R10),
     Asm.Instruction.Idiv (Asm.Operand.Register Asm.Register.R10)]
  | i => [i]

/-- `fixing_up` (`assembly.rs`): prepend `AllocateStack(stack_size)`,
then `flat_map` the legalization rewrite over every instruction. -/
def fixingUp (is : List Asm.Instruction) (stackSize : Nat) : List Asm.Instruction :=
  let rec go : List Asm.Instruction → List Asm.Instruction
    | [] => []
    | i :: is => fixInstr i ++ go is
  go (Asm.Instruction.AllocateStack stackSize :: is)

/-- `assembly` (`assembly.rs`): selection, pseudo replacement, then
legalization with the frame size from pseudo replacement. -/
def assemblyPass (tac : List Tacky.Instruction) : List Asm.Instruction :=
  let p := instructionsSel tac
  let (p', offset) := replacePseudos p
  fixingUp p' offset

/-! ## Emitter (`codegen.rs`) -/

/-- The `Display` instance of `Register` (`assembly.rs`). -/
def showRegister : Asm.Register → String
  | Asm.Register.AX => "%eax"
  | Asm.Register.DX => "%edx"
  | Asm.Register.R10 => "%r10d"
  | Asm.Register.R11 => "%r11d"

/-- The `Display` instance of `UnaryOperator` (`assembly.rs`). -/
def showUnaryOperator : Asm.UnaryOperator → String
  | Asm.UnaryOperator.Neg => "negl"
  | Asm.UnaryOperator.Not => "notl"

/-- `operand` (`codegen.rs`) composed with `Display for Operand`
(`assembly.rs`): a `Pseudo` at emission time panics in the source, so
the embedding is undefined (`none`) there. -/
def showOperand : Asm.Operand → Option String
  | Asm.Operand.Pseudo _ => none
  | Asm.Operand.Imm n => some ("$" ++ toString n)
  | Asm.Operand.Register r => some (showRegister r)
  | Asm.Operand.Stack i => some ("-" ++ toString i ++ "(%rbp)")

/-- `instruction` (`codegen.rs` lines 26–39). The source `match` has
arms only for `Mov`, `Unary`, `AllocateStack` and `Ret`; it is *not*
exhaustive — `Binary`, `Idiv` and `Cdq` have no rendering — so the
embedding is undefined (`none`) on those instructions. -/
def instructionText : Asm.Instruction → Option String
  | Asm.Instruction.Mov src dst =>
    match showOperand src, showOperand dst with
    | some s, some d => some ("\tmovl\t" ++ s ++ ", " ++ d)
    | _, _ => none
  | Asm.Instruction.Unary op operand =>
    match showOperand operand with
    | some o => some ("\t" ++ showUnaryOperator op ++ "\t" ++ o)
    | none => none
  | Asm.Instruction.AllocateStack i =>
    some ("\tsubq\t$" ++ toString i ++ ", %rsp")
  | Asm.Instruction.Ret =>
    some "\tmovq\t%rbp, %rsp\n\tpopq\t%rbp\n\tret"
  | _ => none

/-! ## Support definitions for the stated properties -/

/-- The token spelling of an AST binary operator (inverse of
`parse_binary_operation`). -/
def binTok : Ast.BinaryOperation → Token
  | Ast.BinaryOperation.Add => Token.Plus
  | Ast.BinaryOperation.Subtract => Token.Minus
  | Ast.BinaryOperation.Multiply => Token.Star
  | Ast.BinaryOperation.Divide => Token.Slash
  | Ast.BinaryOperation.Remainder => Token.Percent

/-- The token yield of an expression: the token sequence it prints back
to (no parentheses). -/
def yieldE : Ast.Expression → List Token
  | Ast.Expression.Constant n => [Token.Constant n]
  | Ast.Expression.Unary op e =>
    (match op with
     | Ast.UnaryOperation.Negate => Token.Minus
     | Ast.UnaryOperation.Complement => Token.Tilde) :: yieldE e
  | Ast.Expression.Binary op l r => yieldE l ++ binTok op :: yieldE r

/-- The precedence of an expression's top operator; non-`Binary` nodes
count as atoms (precedence 1000, higher than any operator). -/
def topPrec : Ast.Expression → Nat
  | Ast.Expression.Binary op _ _ => precedence (binTok op)
  | _ => 1000

/-- The unique tree shape dictated by the precedence table and left
associativity for an all-binary expression: in `Binary op l r`, the left
child binds at least as tightly as `op` (equal precedence leans left)
and the right child binds strictly more tightly. -/
def wellShaped : Ast.Expression → Bool
  | Ast.Expression.Constant _ => true
  | Ast.Expression.Unary _ _ => false
  | Ast.Expression.Binary op l r =>
    wellShaped l && wellShaped r &&
    decide (precedence (binTok op) ≤ topPrec l) &&
    decide (precedence (binTok op) < topPrec r)

/-- Token lists of shape `(binop Constant)*` — what may follow the first
constant of an all-binary expression. -/
def altTail : List Token → Bool
  | [] => true
  | t :: Token.Constant _ :: rest => isBinaryOperator t && altTail rest
  | _ => false

/-- Token lists of shape `Constant (binop Constant)*`: expressions built
only from integer literals and binary operators. -/
def isAltExpr : List Token → Bool
  | Token.Constant _ :: rest => altTail rest
  | _ => false

def isConstE : Ast.Expression → Bool
  | Ast.Expression.Constant _ => true
  | _ => false

/-- The number of temporaries TAC lowering allocates for an expression:
one per `Unary` or `Binary` node. -/
def sizeE : Ast.Expression → Nat
  | Ast.Expression.Constant _ => 0
  | Ast.Expression.Unary _ e => sizeE e + 1
  | Ast.Expression.Binary _ l r => sizeE l + sizeE r + 1

/-- The destinations of a TAC instruction list, in order (`Return` has
no destination). -/
def dstsOf : List Tacky.Instruction → List Tacky.Value
  | [] => []
  | Tacky.Instruction.Return _ :: is => dstsOf is
  | Tacky.Instruction.Unary _ _ dst :: is => dst :: dstsOf is
  | Tacky.Instruction.Binary _ _ _ dst :: is => dst :: dstsOf is

/-- The source operands of a TAC instruction (the `Return` value counts
as a source). -/
def srcsOf : Tacky.Instruction → List Tacky.Value
  | Tacky.Instruction.Return v => [v]
  | Tacky.Instruction.Unary _ src _ => [src]
  | Tacky.Instruction.Binary _ l r _ => [l, r]

def isConstV : Tacky.Value → Bool
  | Tacky.Value.Constant _ => true
  | _ => false

/-- Every source of every instruction is a constant or was previously
defined: either it is in the initial set `D` or it is the destination of
an earlier instruction in the list. -/
def okFrom (D : List Tacky.Value) : List Tacky.Instruction → Prop
  | [] => True
  | i :: is =>
    (∀ s ∈ srcsOf i, isConstV s = true ∨ s ∈ D) ∧ okFrom (D ++ dstsOf [i]) is

/-- Characters on which `Cursor::lex` reaches its wildcard arm: not
whitespace (so not skipped), none of the ten singleton tokens, not `-`,
not a digit, not an identifier start, and not the `'\0'` EOF
sentinel. -/
def IsInvalidStart (c : Char) : Prop :=
  c.isWhitespace = false ∧ lexPunct c = none ∧ c ≠ '-' ∧
  c.isDigit = false ∧ isLetterStart c = false ∧ c ≠ '\x00'

/-- The decimal digit string of a natural number, most significant digit
first — the mathematical specification of `Nat.repr` (used only to prove
that `Nat.repr` is injective). -/
def decList (n : Nat) : List Char :=
  if n < 10 then [Nat.digitChar n]
  else decList (n / 10) ++ [Nat.digitChar (n % 10)]
decreasing_by exact Nat.div_lt_self (by omega) (by omega)

/-! ## Helper lemmas -/

theorem lexToken_shrink : ∀ {c : Char} {r : List Char} {t : Token} {rest : List Char},
    lexToken c r = some (t, rest) → rest.length ≤ r.length := by
  intro c r t rest
  have hr' : (r.dropWhile isAlnumChar).length ≤ r.length :=
    (List.dropWhile_sublist isAlnumChar).length_le
  have ht : r.tail.length ≤ r.length := by cases r <;> simp
  intro h
  simp only [lexToken] at h
  repeat' split at h
  all_goals try simp at h
  all_goals obtain ⟨h1, h2⟩ := h
  all_goals subst h2
  all_goals omega

theorem lexStep_shrink {cs : List Char} {t : Token} {rest : List Char}
    (h : lexStep cs = some (t, rest)) : rest.length < cs.length := by
  have hws : (cs.dropWhile Char.isWhitespace).length ≤ cs.length :=
    (List.dropWhile_sublist Char.isWhitespace).length_le
  unfold lexStep at h
  cases hd : cs.dropWhile Char.isWhitespace with
  | nil => rw [hd] at h; simp at h
  | cons c r =>
    rw [hd] at h
    rw [hd] at hws
    simp only [List.length_cons] at hws
    have h' : lexToken c r = some (t, rest) := h
    have := lexToken_shrink h'
    omega

theorem lexF_succ (f : Nat) (cs : List Char) :
    lexF (f + 1) cs =
      match lexStep cs with
      | none => []
      | some (t, rest) => t :: lexF f rest := rfl

theorem lexF_fuel_irrel :
    ∀ f g cs, cs.length < f → cs.length < g → lexF f cs = lexF g cs := by
  intro f
  induction f with
  | zero => intro g cs h; omega
  | succ f ih =>
    intro g cs hf hg
    match g, hg with
    | g + 1, hg =>
      rw [lexF_succ, lexF_succ]
      match hs : lexStep cs with
      | none => rfl
      | some (t, rest) =>
        have hlen := lexStep_shrink hs
        have h1 : rest.length < f := by omega
        have h2 : rest.length < g := by omega
        show t :: lexF f rest = t :: lexF g rest
        rw [ih g rest h1 h2]

/-- Unfolding equation for `lexAll`: one `Cursor::lex` step, then the
rest of the stream. -/
theorem lexAll_eq (cs : List Char) :
    lexAll cs =
      match lexStep cs with
      | none => []
      | some (t, rest) => t :: lexAll rest := by
  show lexF (cs.length + 1) cs = _
  rw [lexF_succ]
  match hs : lexStep cs with
  | none => rfl
  | some (t, rest) =>
    have hlen := lexStep_shrink hs
    show t :: lexF cs.length rest = t :: lexAll rest
    rw [lexF_fuel_irrel cs.length (rest.length + 1) rest (by omega) (by omega)]
    rfl

theorem parseExpression_succ (f minPrec : Nat) (ts : List Token) :
    parseExpression (f + 1) minPrec ts =
      pbind (parseFactor f ts) (fun left ts1 => parseLoop f minPrec left ts1) := rfl

theorem parseLoop_nil (f minPrec : Nat) (left : Ast.Expression) :
    parseLoop (f + 1) minPrec left [] = some (Except.ok left, []) := rfl

theorem parseLoop_cons (f minPrec : Nat) (left : Ast.Expression)
    (t : Token) (ts' : List Token) :
    parseLoop (f + 1) minPrec left (t :: ts') =
      (if isBinaryOperator t = false then some (Except.ok left, t :: ts')
       else if precedence t < minPrec then some (Except.ok left, t :: ts')
       else
         pbind (parseBinaryOperation (t :: ts')) (fun op ts1 =>
           pbind (parseExpression f (precedence t + 1) ts1) (fun right ts2 =>
             parseLoop f minPrec (Ast.Expression.Binary op left right) ts2))) := rfl

theorem parseFactor_constant (f : Nat) (hf : 1 ≤ f) (n : Int) (rest : List Token) :
    parseFactor f (Token.Constant n :: rest) =
      some (Except.ok (Ast.Expression.Constant n), rest) := by
  match f, hf with
  | g + 1, _ => rfl

/-! ## Claim theorems -/

/-- C1: the claim says the unary prefix operators parse their operand as
a factor, so that `-1 + 2` parses as `Binary(Add, Unary(Negate, 1), 2)`.
The code does not: `parse_unary_operation` recurses into
`parse_expression(0)` (a full expression), so inside the program
`int main(void){return -1+2;}` the expression `-1+2` parses as
`Unary(Negate, Binary(Add, 1, 2))` — the unary operator is applied to
the whole following addition. This theorem evaluates the embedded lexer
and parser on that program and exhibits the resulting AST. -/
theorem C1_unary_minus_consumes_following_addition :
    lexAll "int main(void){return -1+2;}".data =
      [Token.Int, Token.Identifier "main", Token.OpenParenthesis, Token.Void,
       Token.CloseParenthesis, Token.OpenBrace, Token.Return, Token.Minus,
       Token.Constant 1, Token.Plus, Token.Constant 2, Token.Semicolon,
       Token.CloseBrace] ∧
    parseTokens 20 (lexAll "int main(void){return -1+2;}".data) =
      some (Except.ok ⟨⟨"main", Ast.Statement.Return
        (Ast.Expression.Unary Ast.UnaryOperation.Negate
          (Ast.Expression.Binary Ast.BinaryOperation.Add
            (Ast.Expression.Constant 1) (Ast.Expression.Constant 2)))⟩⟩) :=
  ⟨rfl, rfl⟩

/-- C2: the claim says the emitter renders every legalized instruction,
including `Binary`, `Idiv` and `Cdq`. The `match` in `instruction`
(`codegen.rs`) has no arms for `Binary`, `Idiv` or `Cdq`, so the emitter
is undefined on them — although legalization does output them (the
program `return 7/2;` produces a `Cdq`, an `Idiv` and their `Mov`s).
The arms that do exist render as the claim states. -/
theorem C2_emitter_missing_div_arms :
    instructionText (Asm.Instruction.Mov (Asm.Operand.Imm 2)
      (Asm.Operand.Register Asm.Register.AX)) = some "\tmovl\t$2, %eax" ∧
    instructionText (Asm.Instruction.Unary Asm.UnaryOperator.Neg
      (Asm.Operand.Stack 4)) = some "\tnegl\t-4(%rbp)" ∧
    instructionText (Asm.Instruction.AllocateStack 4) = some "\tsubq\t$4, %rsp" ∧
    instructionText Asm.Instruction.Ret =
      some "\tmovq\t%rbp, %rsp\n\tpopq\t%rbp\n\tret" ∧
    instructionText Asm.Instruction.Cdq = none ∧
    instructionText (Asm.Instruction.Idiv (Asm.Operand.Register Asm.Register.R10)) = none ∧
    instructionText (Asm.Instruction.Binary Asm.BinaryOperator.Add
      (Asm.Operand.Register Asm.Register.R10) (Asm.Operand.Stack 4)) = none ∧
    Asm.Instruction.Cdq ∈
      assemblyPass (lowerStatement (Ast.Statement.Return
        (Ast.Expression.Binary Ast.BinaryOperation.Divide
          (Ast.Expression.Constant 7) (Ast.Expression.Constant 2)))) := by
  refine ⟨rfl, rfl, rfl, rfl, rfl, rfl, rfl, ?_⟩
  decide

/-- C3: the claim says pseudo replacement gives distinct pseudos
distinct offsets and a frame size of 4 × (distinct pseudos), including
when an earlier pseudo is re-read after a later one was assigned.
The code fails exactly there: `stack_offset` returns the slot offset it
used, and the caller adopts it as the new running offset, so re-reading
an earlier pseudo rewinds the allocator. For `return (1+2)*(3+4);`
(pseudos `__tmp.0`, `__tmp.1`, `__tmp.2`), re-reading `__tmp.0` (slot 4)
rewinds the offset to 4, so `__tmp.2` is assigned slot 8 — colliding
with `__tmp.1` — and the frame size comes out as 8 instead of
4 × 3 = 12. -/
theorem C3_offset_collision_on_reuse :
    replacePseudos (instructionsSel (lowerStatement (Ast.Statement.Return
      (Ast.Expression.Binary Ast.BinaryOperation.Multiply
        (Ast.Expression.Binary Ast.BinaryOperation.Add
          (Ast.Expression.Constant 1) (Ast.Expression.Constant 2))
        (Ast.Expression.Binary Ast.BinaryOperation.Add
          (Ast.Expression.Constant 3) (Ast.Expression.Constant 4)))))) =
    ([Asm.Instruction.Mov (Asm.Operand.Imm 1) (Asm.Operand.Stack 4),
      Asm.Instruction.Binary Asm.BinaryOperator.Add (Asm.Operand.Imm 2) (Asm.Operand.Stack 4),
      Asm.Instruction.Mov (Asm.Operand.Imm 3) (Asm.Operand.Stack 8),
      Asm.Instruction.Binary Asm.BinaryOperator.Add (Asm.Operand.Imm 4) (Asm.Operand.Stack 8),
      Asm.Instruction.Mov (Asm.Operand.Stack 4) (Asm.Operand.Stack 8),
      Asm.Instruction.Binary Asm.BinaryOperator.Mult (Asm.Operand.Stack 8) (Asm.Operand.Stack 8),
      Asm.Instruction.Mov (Asm.Operand.Stack 8) (Asm.Operand.Register Asm.Register.AX),
      Asm.Instruction.Ret], 8) ∧ (8 : Nat) ≠ 4 * 3 := by
  refine ⟨rfl, ?_⟩
  decide

/-- C4: the claim says no legalized `Binary(Mul)` has a `Stack`
destination, for every source shape including an immediate source. The
`Mult` arm of `fixing_up` only fires when the source is *also* `Stack`,
so for `return 2*3;` the instruction `imull $3, -4(%rbp)` — a `Mul`
with an immediate source and a `Stack` destination — passes through
legalization unchanged. -/
theorem C4_mul_stack_dst_not_legalized :
    assemblyPass (lowerStatement (Ast.Statement.Return
      (Ast.Expression.Binary Ast.BinaryOperation.Multiply
        (Ast.Expression.Constant 2) (Ast.Expression.Constant 3)))) =
    [Asm.Instruction.AllocateStack 4,
     Asm.Instruction.Mov (Asm.Operand.Imm 2) (Asm.Operand.Stack 4),
     Asm.Instruction.Binary Asm.BinaryOperator.Mult (Asm.Operand.Imm 3) (Asm.Operand.Stack 4),
     Asm.Instruction.Mov (Asm.Operand.Stack 4) (Asm.Operand.Register Asm.Register.AX),
     Asm.Instruction.Ret] ∧
    Asm.Instruction.Binary Asm.BinaryOperator.Mult (Asm.Operand.Imm 3) (Asm.Operand.Stack 4) ∈
      assemblyPass (lowerStatement (Ast.Statement.Return
        (Ast.Expression.Binary Ast.BinaryOperation.Multiply
          (Ast.Expression.Constant 2) (Ast.Expression.Constant 3)))) := by
  refine ⟨rfl, ?_⟩
  decide

/-- C7 counterexample: the claim says that once the lexer raises an
error nothing follows it in its output. On the source `@1` the lexer
emits `Invalid "@"` and then continues, producing `Constant 1` after the
error. -/
theorem C7_counterexample :
    lexAll ['@', '1'] = [Token.Invalid "@", Token.Constant 1] ∧
    lexAll ['@', '1'] ≠ [Token.Invalid "@"] := by
  refine ⟨rfl, ?_⟩
  decide

/-- C7 amended: the lexer never stops at an error: on any character that
matches no lexing rule it emits `Token::Invalid` for that character and
continues lexing the rest of the input unchanged (and likewise after an
invalid number, e.g. `12x 3`); fatality is enforced downstream, where
the parser rejects the `Invalid` token. -/
theorem C7_lexer_continues_after_error :
    (∀ (c : Char) (cs : List Char), IsInvalidStart c →
      lexAll (c :: cs) = Token.Invalid (String.mk [c]) :: lexAll cs) ∧
    lexAll "12x 3".data = [Token.Invalid "12x", Token.Constant 3] := by
  constructor
  · intro c cs h
    obtain ⟨hw, hp, hm, hd, hl, hz⟩ := h
    rw [lexAll_eq]
    have hstep : lexStep (c :: cs) = some (Token.Invalid (String.mk [c]), cs) := by
      have h0 : lexStep (c :: cs) = lexToken c cs := by
        unfold lexStep
        rw [List.dropWhile_cons_of_neg (by simp [hw])]
      rw [h0]
      simp only [lexToken, hp, hm, hd, hl, hz, if_false, Bool.false_eq_true,
        if_neg, ite_false]
    rw [hstep]
  · rfl

/-- C7 witness for the amended statement, at the concrete source `@1`. -/
theorem C7_witness :
    lexAll ['@', '1'] = Token.Invalid "@" :: lexAll ['1'] :=
  C7_lexer_continues_after_error.1 '@' ['1']
    ⟨by decide, by decide, by decide, by decide, by decide, by decide⟩

/-- C8: assembly selection maps TAC `Divide` to
`Mov l→AX; Cdq; Idiv r; Mov AX→dst` and `Remainder` to the same
sequence with the final move from `DX`, for all operands. -/
theorem C8_division_selection (l r dst : Tacky.Value) :
    selectInstruction (Tacky.Instruction.Binary Tacky.BinaryOperator.Divide l r dst) =
      [Asm.Instruction.Mov (operandOfValue l) (Asm.Operand.Register Asm.Register.AX),
       Asm.Instruction.Cdq,
       Asm.Instruction.Idiv (operandOfValue r),
       Asm.Instruction.Mov (Asm.Operand.Register Asm.Register.AX) (operandOfValue dst)] ∧
    selectInstruction (Tacky.Instruction.Binary Tacky.BinaryOperator.Remainder l r dst) =
      [Asm.Instruction.Mov (operandOfValue l) (Asm.Operand.Register Asm.Register.AX),
       Asm.Instruction.Cdq,
       Asm.Instruction.Idiv (operandOfValue r),
       Asm.Instruction.Mov (Asm.Operand.Register Asm.Register.DX) (operandOfValue dst)] :=
  ⟨rfl, rfl⟩

/-- C9: `-` is lexed as its own `Minus` token (whenever not followed by
another `-`) before any digits are read, so the digit run after it is
range-checked unsigned: `-2147483648` lexes to `Minus` followed by
`Invalid "2147483648"` (2147483648 exceeds `i32::MAX`), and the program
`int main(void){return -2147483648;}` is rejected by the parser (which,
after `parse_program` fails on the `Invalid` token, reports the next
remaining token `;` as unexpected). -/
theorem C9_min_i32_literal_rejected :
    (∀ (c : Char) (cs : List Char), c ≠ '-' →
      lexAll ('-' :: c :: cs) = Token.Minus :: lexAll (c :: cs)) ∧
    lexAll "-2147483648".data = [Token.Minus, Token.Invalid "2147483648"] ∧
    parseTokens 20 (lexAll "int main(void){return -2147483648;}".data) =
      some (Except.error (ParseError.UnexpectedToken Token.Semicolon)) := by
  refine ⟨?_, rfl, rfl⟩
  intro c cs hc
  rw [lexAll_eq]
  have hstep : lexStep ('-' :: c :: cs) = some (Token.Minus, c :: cs) := by
    have h0 : lexStep ('-' :: c :: cs) = lexToken '-' (c :: cs) := rfl
    rw [h0]
    simp [lexToken, lexPunct, hc]
  rw [hstep]

/-- C9 witness at the concrete source `-1`. -/
theorem C9_witness :
    lexAll ['-', '1'] = Token.Minus :: lexAll ['1'] :=
  C9_min_i32_literal_rejected.1 '1' [] (by decide)

/-- C10: the parser accepts any identifier as the function name: for
every identifier `name` and every expression token list `ts` that
`parse_expression` parses leaving exactly `; }`, the full program
`int name(void){return <ts>}` parses to a `FunctionDefinition` carrying
`name` unchanged. -/
theorem C10_any_function_name (fuel : Nat) (name : String) (ts : List Token)
    (e : Ast.Expression)
    (h : parseExpression fuel 0 ts =
      some (Except.ok e, [Token.Semicolon, Token.CloseBrace])) :
    parseTokens fuel (Token.Int :: Token.Identifier name :: Token.OpenParenthesis ::
      Token.Void :: Token.CloseParenthesis :: Token.OpenBrace :: Token.Return :: ts) =
    some (Except.ok ⟨⟨name, Ast.Statement.Return e⟩⟩) := by
  simp [parseTokens, parseProgram, parseFunctionDefinition, parseStatement,
    bumpIfEqual, pbind, h]

/-- C10 witness: function name `foo` with body `return 42;`. -/
theorem C10_witness :
    parseTokens 5 [Token.Int, Token.Identifier "foo", Token.OpenParenthesis,
      Token.Void, Token.CloseParenthesis, Token.OpenBrace, Token.Return,
      Token.Constant 42, Token.Semicolon, Token.CloseBrace] =
    some (Except.ok ⟨⟨"foo", Ast.Statement.Return (Ast.Expression.Constant 42)⟩⟩) :=
  C10_any_function_name 5 "foo" [Token.Constant 42, Token.Semicolon, Token.CloseBrace]
    (Ast.Expression.Constant 42) rfl

/-! ## Injectivity of decimal rendering (for temporary names) -/

theorem decList_length_pos (n : Nat) : 0 < (decList n).length := by
  rw [decList]
  split <;> simp

theorem digitChar_inj_lt : ∀ a : Nat, a < 10 → ∀ b : Nat, b < 10 →
    Nat.digitChar a = Nat.digitChar b → a = b := by decide

theorem toDigitsCore_eq_decList :
    ∀ (fuel n : Nat) (acc : List Char), n < fuel →
      Nat.toDigitsCore 10 fuel n acc = decList n ++ acc := by
  intro fuel
  induction fuel with
  | zero => intro n acc h; omega
  | succ fuel ih =>
    intro n acc h
    have hmod : n % 10 < 10 := Nat.mod_lt _ (by omega)
    have hdm := Nat.div_add_mod n 10
    show (if n / 10 = 0 then Nat.digitChar (n % 10) :: acc
          else Nat.toDigitsCore 10 fuel (n / 10) (Nat.digitChar (n % 10) :: acc)) =
        decList n ++ acc
    by_cases h0 : n / 10 = 0
    · have hn : n < 10 := by omega
      rw [if_pos h0, decList, if_pos hn, Nat.mod_eq_of_lt hn]
      rfl
    · have h10 : 10 ≤ n := by
        by_contra hlt
        exact h0 (Nat.div_eq_of_lt (by omega))
      have hfy : n / 10 < fuel := by
        have := Nat.div_lt_self (show 0 < n by omega) (show 1 < 10 by omega)
        omega
      rw [if_neg h0, ih (n / 10) (Nat.digitChar (n % 10) :: acc) hfy]
      conv_rhs => rw [decList, if_neg (by omega)]
      simp

theorem decList_inj : ∀ m n : Nat, decList m = decList n → m = n := by
  intro m
  induction m using Nat.strong_induction_on with
  | _ m ih =>
    intro n h
    have em1 : m < 10 → decList m = [Nat.digitChar m] := fun hm => by
      rw [decList, if_pos hm]
    have em2 : ¬ m < 10 → decList m = decList (m / 10) ++ [Nat.digitChar (m % 10)] :=
      fun hm => by rw [decList, if_neg hm]
    have en1 : n < 10 → decList n = [Nat.digitChar n] := fun hn => by
      rw [decList, if_pos hn]
    have en2 : ¬ n < 10 → decList n = decList (n / 10) ++ [Nat.digitChar (n % 10)] :=
      fun hn => by rw [decList, if_neg hn]
    by_cases hm : m < 10 <;> by_cases hn : n < 10
    · rw [em1 hm, en1 hn] at h
      simp only [List.cons.injEq, and_true] at h
      exact digitChar_inj_lt m hm n hn h
    · exfalso
      rw [em1 hm, en2 hn] at h
      have hlen := congrArg List.length h
      have hp := decList_length_pos (n / 10)
      simp only [List.length_cons, List.length_nil, List.length_append] at hlen
      omega
    · exfalso
      rw [em2 hm, en1 hn] at h
      have hlen := congrArg List.length h
      have hp := decList_length_pos (m / 10)
      simp only [List.length_cons, List.length_nil, List.length_append] at hlen
      omega
    · rw [em2 hm, en2 hn] at h
      obtain ⟨h1, h2⟩ := List.append_inj' h (by simp)
      simp only [List.cons.injEq, and_true] at h2
      have hmod : m % 10 = n % 10 :=
        digitChar_inj_lt _ (Nat.mod_lt _ (by omega)) _ (Nat.mod_lt _ (by omega)) h2
      have hdiv : m / 10 = n / 10 :=
        ih (m / 10) (Nat.div_lt_self (by omega) (by omega)) (n / 10) h1
      omega

theorem natRepr_injective : Function.Injective Nat.repr := by
  intro m n h
  have hm : Nat.repr m = (decList m).asString := by
    show (Nat.toDigits 10 m).asString = _
    rw [Nat.toDigits, toDigitsCore_eq_decList (m + 1) m [] (by omega), List.append_nil]
  have hn : Nat.repr n = (decList n).asString := by
    show (Nat.toDigits 10 n).asString = _
    rw [Nat.toDigits, toDigitsCore_eq_decList (n + 1) n [] (by omega), List.append_nil]
  rw [hm, hn] at h
  have : decList m = decList n := congrArg String.data h
  exact decList_inj m n this

theorem tmpVar_injective : Function.Injective tmpVar := by
  intro a b h
  simp only [tmpVar, Tacky.Value.Var.injEq] at h
  have hd := congrArg String.data h
  simp only [String.data_append] at hd
  have : ("__tmp." : String).data ++ (Nat.repr a).data =
      ("__tmp." : String).data ++ (Nat.repr b).data := hd
  have hr : (Nat.repr a).data = (Nat.repr b).data := List.append_inj_right this rfl
  exact natRepr_injective (String.ext hr)

/-! ## TAC lowering: structure of the emitted instruction list (C6) -/

theorem dstsOf_append (a b : List Tacky.Instruction) :
    dstsOf (a ++ b) = dstsOf a ++ dstsOf b := by
  induction a with
  | nil => rfl
  | cons i a ih =>
    cases i <;> simp [dstsOf, ih]

theorem okFrom_mono : ∀ {is : List Tacky.Instruction} {D D' : List Tacky.Value},
    D ⊆ D' → okFrom D is → okFrom D' is := by
  intro is
  induction is with
  | nil => intro D D' _ _; trivial
  | cons i is ih =>
    intro D D' hsub h
    obtain ⟨h1, h2⟩ := h
    refine ⟨fun s hs => ?_, ih (fun x hx => ?_) h2⟩
    · rcases h1 s hs with hc | hm
      · exact Or.inl hc
      · exact Or.inr (hsub hm)
    · rcases List.mem_append.mp hx with hx | hx
      · exact List.mem_append.mpr (Or.inl (hsub hx))
      · exact List.mem_append.mpr (Or.inr hx)

theorem okFrom_append : ∀ {is1 : List Tacky.Instruction} {D : List Tacky.Value}
    {is2 : List Tacky.Instruction},
    okFrom D is1 → okFrom (D ++ dstsOf is1) is2 → okFrom D (is1 ++ is2) := by
  intro is1
  induction is1 with
  | nil =>
    intro D is2 _ h2
    simpa [dstsOf] using h2
  | cons i is1 ih =>
    intro D is2 h1 h2
    obtain ⟨ha, hb⟩ := h1
    refine ⟨ha, ih hb ?_⟩
    have : dstsOf (i :: is1) = dstsOf [i] ++ dstsOf is1 := by
      have := dstsOf_append [i] is1
      simpa using this
    rw [this] at h2
    exact okFrom_mono (by simp [List.append_assoc]) h2

theorem emitExpr_spec : ∀ (e : Ast.Expression) (c : Nat) (v : Tacky.Value)
    (c' : Nat) (is : List Tacky.Instruction),
    emitExpr e c = (v, c', is) →
    c' = c + sizeE e ∧
    dstsOf is = (List.range' c (sizeE e)).map tmpVar ∧
    (∀ D, okFrom D is) ∧
    (isConstV v = true ∨ v ∈ dstsOf is) := by
  intro e
  induction e with
  | Constant n =>
    intro c v c' is h
    simp only [emitExpr, Prod.mk.injEq] at h
    obtain ⟨hv, hc, his⟩ := h
    subst hv; subst hc; subst his
    simp [sizeE, dstsOf, okFrom, isConstV]
  | Unary op e ih =>
    intro c v c' is h
    rcases hE : emitExpr e c with ⟨src, c1, is1⟩
    obtain ⟨ih1, ih2, ih3, ih4⟩ := ih c src c1 is1 hE
    simp only [emitExpr, hE, makeTemporary, Prod.mk.injEq] at h
    obtain ⟨hv, hc, his⟩ := h
    subst hv; subst hc; subst his
    have hdsts : dstsOf (is1 ++ [Tacky.Instruction.Unary (unopOfAst op) src (tmpVar c1)]) =
        (List.range' c (sizeE e)).map tmpVar ++ [tmpVar (c + sizeE e)] := by
      rw [dstsOf_append, ih2, ih1]
      rfl
    refine ⟨by rw [show sizeE (Ast.Expression.Unary op e) = sizeE e + 1 from rfl]; omega,
      ?_, ?_, ?_⟩
    · rw [hdsts]
      have hcat : List.range' c (sizeE e + 1) = List.range' c (sizeE e) ++ [c + 1 * sizeE e] :=
        List.range'_concat c (sizeE e)
      rw [show sizeE (Ast.Expression.Unary op e) = sizeE e + 1 from rfl, hcat]
      simp
    · intro D
      refine okFrom_append (ih3 D) ⟨fun s hs => ?_, True.intro⟩
      simp only [srcsOf, List.mem_singleton] at hs
      subst hs
      rcases ih4 with hcst | hm
      · exact Or.inl hcst
      · exact Or.inr (List.mem_append.mpr (Or.inr hm))
    · right
      rw [hdsts]
      exact List.mem_append.mpr (Or.inr (List.mem_singleton.mpr (by rw [ih1])))
  | Binary op l r ihl ihr =>
    intro c v c' is h
    rcases hL : emitExpr l c with ⟨lv, c1, is1⟩
    rcases hR : emitExpr r c1 with ⟨rv, c2, is2⟩
    obtain ⟨ihl1, ihl2, ihl3, ihl4⟩ := ihl c lv c1 is1 hL
    obtain ⟨ihr1, ihr2, ihr3, ihr4⟩ := ihr c1 rv c2 is2 hR
    simp only [emitExpr, hL, hR, makeTemporary, Prod.mk.injEq] at h
    obtain ⟨hv, hc, his⟩ := h
    subst ihl1; subst ihr1
    subst hv; subst hc; subst his
    have hdsts : dstsOf (is1 ++ is2 ++
          [Tacky.Instruction.Binary (binopOfAst op) lv rv (tmpVar (c + sizeE l + sizeE r))]) =
        dstsOf is1 ++ dstsOf is2 ++ [tmpVar (c + sizeE l + sizeE r)] := by
      rw [dstsOf_append, dstsOf_append]
      rfl
    have hsize : c + sizeE l + sizeE r + 1 = c + sizeE (Ast.Expression.Binary op l r) := by
      rw [show sizeE (Ast.Expression.Binary op l r) = sizeE l + sizeE r + 1 from rfl]
      omega
    refine ⟨hsize, ?_, ?_, ?_⟩
    · rw [hdsts, ihl2, ihr2, ← List.map_append, List.range'_append_1]
      rw [show sizeE (Ast.Expression.Binary op l r) = sizeE l + sizeE r + 1 from rfl,
        List.range'_concat, List.map_append]
      simp [Nat.add_assoc]
      rw [Nat.add_comm (sizeE r) (sizeE l)]
    · intro D
      refine okFrom_append (okFrom_append (ihl3 D) (ihr3 _))
        ⟨fun s hs => ?_, True.intro⟩
      simp only [srcsOf, List.mem_cons, List.not_mem_nil, or_false] at hs
      rcases hs with rfl | rfl
      · rcases ihl4 with hcst | hm
        · exact Or.inl hcst
        · refine Or.inr (List.mem_append.mpr (Or.inr ?_))
          rw [dstsOf_append]
          exact List.mem_append.mpr (Or.inl hm)
      · rcases ihr4 with hcst | hm
        · exact Or.inl hcst
        · refine Or.inr (List.mem_append.mpr (Or.inr ?_))
          rw [dstsOf_append]
          exact List.mem_append.mpr (Or.inr hm)
    · right
      rw [hdsts]
      exact List.mem_append.mpr (Or.inr (by simp))

/-- C6: for every AST expression, TAC lowering of `return e;` emits a
list whose destinations are exactly `__tmp.0 … __tmp.(k-1)` in
first-definition order, where `k = sizeE e` is the number of temporaries
the program requires; hence (with `Nat.repr` injective) all destination
names are distinct; and every `Var` used as a source — including the
final `Return`'s value — is the destination of an earlier instruction in
the list. -/
theorem C6_tac_ssa_and_naming (e : Ast.Expression) :
    dstsOf (lowerStatement (Ast.Statement.Return e)) =
      (List.range (sizeE e)).map tmpVar ∧
    (dstsOf (lowerStatement (Ast.Statement.Return e))).Nodup ∧
    okFrom [] (lowerStatement (Ast.Statement.Return e)) := by
  rcases hE : emitExpr e 0 with ⟨v, c', is⟩
  obtain ⟨h1, h2, h3, h4⟩ := emitExpr_spec e 0 v c' is hE
  have hlow : lowerStatement (Ast.Statement.Return e) =
      is ++ [Tacky.Instruction.Return v] := by
    simp [lowerStatement, hE]
  have hdsts : dstsOf (is ++ [Tacky.Instruction.Return v]) = dstsOf is := by
    rw [dstsOf_append]
    simp [dstsOf]
  have hmain : dstsOf (lowerStatement (Ast.Statement.Return e)) =
      (List.range (sizeE e)).map tmpVar := by
    rw [hlow, hdsts, h2, List.range_eq_range']
  refine ⟨hmain, ?_, ?_⟩
  · rw [hmain]
    exact (List.nodup_range (sizeE e)).map tmpVar_injective
  · rw [hlow]
    refine okFrom_append (h3 []) ⟨fun s hs => ?_, True.intro⟩
    simp only [srcsOf, List.mem_singleton] at hs
    subst hs
    rcases h4 with hcst | hm
    · exact Or.inl hcst
    · exact Or.inr (by simpa using hm)

/-! ## Parser precedence: shape of parsed all-binary expressions (C5) -/

theorem precedence_le_50 (t : Token) : precedence t ≤ 50 := by
  cases t <;> simp [precedence]

theorem binTok_isBinaryOperator (op : Ast.BinaryOperation) :
    isBinaryOperator (binTok op) = true := by
  cases op <;> rfl

theorem binTok_inj : ∀ a b : Ast.BinaryOperation, binTok a = binTok b → a = b := by
  intro a b h
  cases a <;> cases b <;> simp_all [binTok]

theorem yieldE_length_pos (e : Ast.Expression) : 0 < (yieldE e).length := by
  cases e <;> simp [yieldE]

theorem topPrec_of_const (e : Ast.Expression) (h : isConstE e = true) :
    topPrec e = 1000 := by
  cases e <;> simp_all [isConstE, topPrec]

theorem yield_prec_bound : ∀ e : Ast.Expression, wellShaped e = true →
    ∀ t ∈ yieldE e, isBinaryOperator t = true → topPrec e ≤ precedence t := by
  intro e
  induction e with
  | Constant n =>
    intro _ t ht hbt
    simp only [yieldE, List.mem_singleton] at ht
    subst ht
    simp [isBinaryOperator] at hbt
  | Unary op e ih =>
    intro ws
    simp [wellShaped] at ws
  | Binary op l r ihl ihr =>
    intro ws t ht hbt
    simp only [wellShaped, Bool.and_eq_true, decide_eq_true_eq] at ws
    obtain ⟨⟨⟨wl, wr⟩, hpl⟩, hpr⟩ := ws
    simp only [yieldE, List.mem_append, List.mem_cons] at ht
    rcases ht with hl | ho | hr2
    · exact le_trans hpl (ihl wl t hl hbt)
    · subst ho
      exact le_refl _
    · exact le_of_lt (lt_of_lt_of_le hpr (ihr wr t hr2 hbt))

theorem yield_split_no_cross
    (yl1 yr1 yl2 yr2 : List Token) (o1 o2 : Token)
    (h : yl1 ++ o1 :: yr1 = yl2 ++ o2 :: yr2)
    (ho1 : isBinaryOperator o1 = true) (ho2 : isBinaryOperator o2 = true)
    (hL2 : ∀ t ∈ yl2, isBinaryOperator t = true → precedence o2 ≤ precedence t)
    (hR1 : ∀ t ∈ yr1, isBinaryOperator t = true → precedence o1 < precedence t) :
    ¬ yl1.length < yl2.length := by
  intro hlt
  have e1 : (yl1 ++ o1 :: yr1)[yl1.length]? = some o1 := by
    rw [List.getElem?_append_right (le_refl _)]
    simp
  have e2 : (yl2 ++ o2 :: yr2)[yl1.length]? = some o1 := by rw [← h]; exact e1
  rw [List.getElem?_append_left hlt] at e2
  have ho1mem : o1 ∈ yl2 := List.getElem?_mem e2
  have f1 : (yl2 ++ o2 :: yr2)[yl2.length]? = some o2 := by
    rw [List.getElem?_append_right (le_refl _)]
    simp
  have f2 : (yl1 ++ o1 :: yr1)[yl2.length]? = some o2 := by rw [h]; exact f1
  rw [List.getElem?_append_right (by omega : yl1.length ≤ yl2.length)] at f2
  obtain ⟨k, hk⟩ : ∃ k, yl2.length - yl1.length = k + 1 :=
    ⟨yl2.length - yl1.length - 1, by omega⟩
  rw [hk] at f2
  simp only [List.getElem?_cons_succ] at f2
  have ho2mem : o2 ∈ yr1 := List.getElem?_mem f2
  have hb1 := hL2 o1 ho1mem ho1
  have hb2 := hR1 o2 ho2mem ho2
  omega

theorem wellShaped_yield_inj : ∀ e1 e2 : Ast.Expression,
    wellShaped e1 = true → wellShaped e2 = true →
    yieldE e1 = yieldE e2 → e1 = e2 := by
  intro e1
  induction e1 with
  | Constant n =>
    intro e2 _ ws2 h
    cases e2 with
    | Constant m =>
      simp only [yieldE, List.cons.injEq, and_true, Token.Constant.injEq] at h
      rw [h]
    | Unary op e => simp [wellShaped] at ws2
    | Binary op2 l2 r2 =>
      exfalso
      simp only [yieldE] at h
      have hlen := congrArg List.length h
      simp only [List.length_cons, List.length_nil, List.length_append] at hlen
      have := yieldE_length_pos l2
      omega
  | Unary op e ih =>
    intro e2 ws1
    simp [wellShaped] at ws1
  | Binary op1 l1 r1 ihl ihr =>
    intro e2 ws1 ws2 h
    cases e2 with
    | Constant m =>
      exfalso
      simp only [yieldE] at h
      have hlen := congrArg List.length h
      simp only [List.length_cons, List.length_nil, List.length_append] at hlen
      have := yieldE_length_pos l1
      omega
    | Unary op e => simp [wellShaped] at ws2
    | Binary op2 l2 r2 =>
      simp only [yieldE] at h
      have ws1' := ws1
      have ws2' := ws2
      simp only [wellShaped, Bool.and_eq_true, decide_eq_true_eq] at ws1' ws2'
      obtain ⟨⟨⟨wl1, wr1⟩, hp1l⟩, hp1r⟩ := ws1'
      obtain ⟨⟨⟨wl2, wr2⟩, hp2l⟩, hp2r⟩ := ws2'
      have hb1 := binTok_isBinaryOperator op1
      have hb2 := binTok_isBinaryOperator op2
      have hL2b : ∀ t ∈ yieldE l2, isBinaryOperator t = true →
          precedence (binTok op2) ≤ precedence t :=
        fun t ht hbt => le_trans hp2l (yield_prec_bound l2 wl2 t ht hbt)
      have hL1b : ∀ t ∈ yieldE l1, isBinaryOperator t = true →
          precedence (binTok op1) ≤ precedence t :=
        fun t ht hbt => le_trans hp1l (yield_prec_bound l1 wl1 t ht hbt)
      have hR1b : ∀ t ∈ yieldE r1, isBinaryOperator t = true →
          precedence (binTok op1) < precedence t :=
        fun t ht hbt => lt_of_lt_of_le hp1r (yield_prec_bound r1 wr1 t ht hbt)
      have hR2b : ∀ t ∈ yieldE r2, isBinaryOperator t = true →
          precedence (binTok op2) < precedence t :=
        fun t ht hbt => lt_of_lt_of_le hp2r (yield_prec_bound r2 wr2 t ht hbt)
      have hnc1 := yield_split_no_cross _ _ _ _ _ _ h hb1 hb2 hL2b hR1b
      have hnc2 := yield_split_no_cross _ _ _ _ _ _ h.symm hb2 hb1 hL1b hR2b
      have hleneq : (yieldE l1).length = (yieldE l2).length := by omega
      obtain ⟨h1, h2⟩ := List.append_inj h hleneq
      simp only [List.cons.injEq] at h2
      obtain ⟨ho, hr⟩ := h2
      have hop : op1 = op2 := binTok_inj _ _ ho
      subst hop
      have hl : l1 = l2 := ihl l2 wl1 wl2 h1
      have hrr : r1 = r2 := ihr r2 wr1 wr2 hr
      rw [hl, hrr]

theorem altTail_cases (ts : List Token) (h : altTail ts = true) :
    ts = [] ∨ ∃ t n rest0, ts = t :: Token.Constant n :: rest0 ∧
      isBinaryOperator t = true ∧ altTail rest0 = true := by
  cases ts with
  | nil => exact Or.inl rfl
  | cons t ts1 =>
    cases ts1 with
    | nil => simp [altTail] at h
    | cons t2 rest0 =>
      cases t2 <;> first
        | (rw [altTail, Bool.and_eq_true] at h
           exact Or.inr ⟨t, _, rest0, rfl, h.1, h.2⟩)
        | simp [altTail] at h

theorem isAltExpr_cases (ts : List Token) (h : isAltExpr ts = true) :
    ∃ n tail, ts = Token.Constant n :: tail ∧ altTail tail = true := by
  cases ts with
  | nil => simp [isAltExpr] at h
  | cons t tail =>
    cases t <;> first
      | (rw [isAltExpr] at h
         exact ⟨_, tail, rfl, h⟩)
      | simp [isAltExpr] at h

theorem parseBinaryOperation_binop (t : Token) (rest : List Token)
    (h : isBinaryOperator t = true) :
    ∃ op, parseBinaryOperation (t :: rest) = some (Except.ok op, rest) ∧
      binTok op = t := by
  cases t <;> first
    | exact ⟨_, rfl, rfl⟩
    | simp [isBinaryOperator] at h

/-- The precedence-climbing invariant, by induction on fuel: on an
all-binary token list, `parse_expression(m)` succeeds and returns a
well-shaped expression whose yield is exactly the consumed prefix, whose
top operator binds at least as tightly as `m` (unless it is a bare
constant), and whose unconsumed remainder starts (if at all) with an
operator binding less tightly than `m`; and correspondingly for the
climbing loop with its accumulated left operand. -/
theorem parse_alt_spec : ∀ f : Nat,
    (∀ m ts, isAltExpr ts = true → ts.length < f →
      ∃ e rest, parseExpression f m ts = some (Except.ok e, rest) ∧
        ts = yieldE e ++ rest ∧ wellShaped e = true ∧
        (isConstE e = true ∨ m ≤ topPrec e) ∧
        altTail rest = true ∧ (∀ t ts', rest = t :: ts' → precedence t < m)) ∧
    (∀ m left ts, altTail ts = true → ts.length < f → wellShaped left = true →
      (∀ t ts', ts = t :: ts' → precedence t ≤ topPrec left) →
      ∃ e rest, parseLoop f m left ts = some (Except.ok e, rest) ∧
        yieldE left ++ ts = yieldE e ++ rest ∧ wellShaped e = true ∧
        (e = left ∨ m ≤ topPrec e) ∧
        altTail rest = true ∧ (∀ t ts', rest = t :: ts' → precedence t < m)) := by
  intro f
  induction f with
  | zero =>
    constructor
    · intro m ts _ hlen
      omega
    · intro m left ts _ hlen
      omega
  | succ f ih =>
    obtain ⟨ihP, ihQ⟩ := ih
    constructor
    · -- parse_expression at fuel f + 1
      intro m ts halt hlen
      obtain ⟨n, tail, rfl, htail⟩ := isAltExpr_cases ts halt
      simp only [List.length_cons] at hlen
      have hf1 : 1 ≤ f := by omega
      have hQ := ihQ m (Ast.Expression.Constant n) tail htail (by omega) rfl
        (fun t ts' _ => by
          have := precedence_le_50 t
          simp only [topPrec]
          omega)
      obtain ⟨e, rest, hp, hy, hws, htp, hralt, hrlt⟩ := hQ
      refine ⟨e, rest, ?_, ?_, hws, ?_, hralt, hrlt⟩
      · rw [parseExpression_succ, parseFactor_constant f hf1 n tail]
        exact hp
      · simpa [yieldE] using hy
      · rcases htp with rfl | hle
        · exact Or.inl rfl
        · exact Or.inr hle
    · -- the climbing loop at fuel f + 1
      intro m left ts halt hlen hws hhead
      rcases altTail_cases ts halt with rfl | ⟨t, n, rest0, rfl, hbt, hrest0⟩
      · exact ⟨left, [], parseLoop_nil f m left, by simp, hws, Or.inl rfl, rfl,
          fun t ts' h => by cases h⟩
      · simp only [List.length_cons] at hlen
        by_cases hm : precedence t < m
        · refine ⟨left, t :: Token.Constant n :: rest0, ?_, rfl, hws, Or.inl rfl,
            halt, fun t' ts' he => ?_⟩
          · rw [parseLoop_cons, if_neg (by simp [hbt]), if_pos hm]
          · cases he
            exact hm
        · obtain ⟨op, hop, hopTok⟩ :=
            parseBinaryOperation_binop t (Token.Constant n :: rest0) hbt
          have hPalt : isAltExpr (Token.Constant n :: rest0) = true := by
            rw [isAltExpr]
            exact hrest0
          obtain ⟨right, rest2, hpr, hyr, hwsr, htpr, hrAlt, hrLt⟩ :=
            ihP (precedence t + 1) _ hPalt (by simp; omega)
          have hwsNew : wellShaped (Ast.Expression.Binary op left right) = true := by
            simp only [wellShaped, Bool.and_eq_true, decide_eq_true_eq]
            refine ⟨⟨⟨hws, hwsr⟩, ?_⟩, ?_⟩
            · rw [hopTok]
              exact hhead t _ rfl
            · rw [hopTok]
              rcases htpr with hconst | hle
              · rw [topPrec_of_const right hconst]
                have := precedence_le_50 t
                omega
              · omega
          have hlen3 : rest2.length < f := by
            have hyl := congrArg List.length hyr
            have := yieldE_length_pos right
            simp only [List.length_cons, List.length_append] at hyl
            omega
          have hheadNew : ∀ t' ts', rest2 = t' :: ts' →
              precedence t' ≤ topPrec (Ast.Expression.Binary op left right) := by
            intro t' ts' he
            have := hrLt t' ts' he
            show precedence t' ≤ precedence (binTok op)
            rw [hopTok]
            omega
          obtain ⟨e, rest, hp, hy, hwsE, htpE, hrestE, hrestLtE⟩ :=
            ihQ m (Ast.Expression.Binary op left right) rest2 hrAlt hlen3 hwsNew hheadNew
          refine ⟨e, rest, ?_, ?_, hwsE, ?_, hrestE, hrestLtE⟩
          · rw [parseLoop_cons, if_neg (by simp [hbt]), if_neg hm, hop]
            show pbind (parseExpression f (precedence t + 1) (Token.Constant n :: rest0))
              (fun right ts2 =>
                parseLoop f m (Ast.Expression.Binary op left right) ts2) = _
            rw [hpr]
            show parseLoop f m (Ast.Expression.Binary op left right) rest2 = _
            exact hp
          · calc yieldE left ++ t :: Token.Constant n :: rest0
                = yieldE left ++ t :: (yieldE right ++ rest2) := by rw [← hyr]
              _ = (yieldE left ++ binTok op :: yieldE right) ++ rest2 := by
                  rw [hopTok]; simp
              _ = yieldE (Ast.Expression.Binary op left right) ++ rest2 := by
                  simp [yieldE]
              _ = yieldE e ++ rest := hy
          · right
            rcases htpE with rfl | hle
            · show m ≤ precedence (binTok op)
              rw [hopTok]
              omega
            · exact hle

/-- C5: for every expression built only from integer literals and the
binary operators `+ - * / %` (token lists of shape
`Constant (binop Constant)*`), the parser succeeds, consumes the whole
list, and produces a well-shaped tree — the unique tree consistent with
the precedence table (`* / %` at 50 over `+ -` at 45) and left
associativity whose yield is the input; in particular `1-2-3` parses as
`Sub(Sub(1,2),3)` and `1-2*3` parses as `Sub(1,Mul(2,3))`. -/
theorem C5_parser_precedence :
    (∀ ts : List Token, isAltExpr ts = true →
      ∃ e, parseExpression (ts.length + 1) 0 ts = some (Except.ok e, []) ∧
        yieldE e = ts ∧ wellShaped e = true ∧
        (∀ e', wellShaped e' = true → yieldE e' = ts → e' = e)) ∧
    parseExpression 6 0 [Token.Constant 1, Token.Minus, Token.Constant 2,
      Token.Minus, Token.Constant 3] =
      some (Except.ok (Ast.Expression.Binary Ast.BinaryOperation.Subtract
        (Ast.Expression.Binary Ast.BinaryOperation.Subtract
          (Ast.Expression.Constant 1) (Ast.Expression.Constant 2))
        (Ast.Expression.Constant 3)), []) ∧
    parseExpression 6 0 [Token.Constant 1, Token.Minus, Token.Constant 2,
      Token.Star, Token.Constant 3] =
      some (Except.ok (Ast.Expression.Binary Ast.BinaryOperation.Subtract
        (Ast.Expression.Constant 1)
        (Ast.Expression.Binary Ast.BinaryOperation.Multiply
          (Ast.Expression.Constant 2) (Ast.Expression.Constant 3))), []) := by
  refine ⟨?_, rfl, rfl⟩
  intro ts halt
  obtain ⟨hP, _⟩ := parse_alt_spec (ts.length + 1)
  obtain ⟨e, rest, hp, hy, hws, _, _, hrlt⟩ := hP 0 ts halt (by omega)
  have hrest : rest = [] := by
    cases rest with
    | nil => rfl
    | cons t ts' => exact absurd (hrlt t ts' rfl) (by omega)
  subst hrest
  have hyts : yieldE e = ts := by simpa using hy.symm
  refine ⟨e, hp, hyts, hws, ?_⟩
  intro e' hws' hy'
  exact wellShaped_yield_inj e' e hws' hws (by rw [hy', hyts])

/-- C5 witness at the concrete input `7` (a single constant). -/
theorem C5_witness :
    ∃ e, parseExpression 2 0 [Token.Constant 7] = some (Except.ok e, []) ∧
      yieldE e = [Token.Constant 7] ∧ wellShaped e = true ∧
      (∀ e', wellShaped e' = true → yieldE e' = [Token.Constant 7] → e' = e) :=
  C5_parser_precedence.1 [Token.Constant 7] (by decide)
